import Mathlib

/-!
# Verification of the terminal UI rendering engine core

Shallow embedding of the core subsystems of the `tuxe` terminal UI engine:
the Unicode width oracle, the text layout engine (markup tokenizer, wrap and
truncate modes, alignment), the LRU layout cache, the screen-buffer diff
renderer with its Program operations, the terminfo capability interpreter,
the widget-descriptor factory and the React `render` entry point.

The repository ships only the tests and callers of the engine core, so the
core subsystems (layout engine, cache, diff renderer, interpreter, Program)
are modelled from the specification; the widget-descriptor factory and
`render()` are embedded from their TypeScript source.
-/

set_option autoImplicit false

namespace Tuxe

/-! ## Unicode/Width oracle -/

/-- Modelled from the spec: the Unicode/Width oracle (§4.4) is missing from
the sources; `widthOf` classifies a code point as zero-width (combining
marks, zero-width space), double-width (East-Asian wide/fullwidth ranges),
or single-width (everything else, including unassigned code points). -/
def widthOf (c : Char) : Nat :=
  let n := c.toNat
  if (0x300 ≤ n ∧ n ≤ 0x36F) ∨ (0x20D0 ≤ n ∧ n ≤ 0x20FF) ∨ n = 0x200B then 0
  else if (0x1100 ≤ n ∧ n ≤ 0x115F) ∨ (0x2E80 ≤ n ∧ n ≤ 0x303E) ∨
          (0x3041 ≤ n ∧ n ≤ 0x33FF) ∨ (0x3400 ≤ n ∧ n ≤ 0x4DBF) ∨
          (0x4E00 ≤ n ∧ n ≤ 0x9FFF) ∨ (0xA000 ≤ n ∧ n ≤ 0xA4CF) ∨
          (0xAC00 ≤ n ∧ n ≤ 0xD7A3) ∨ (0xF900 ≤ n ∧ n ≤ 0xFAFF) ∨
          (0xFE30 ≤ n ∧ n ≤ 0xFE4F) ∨ (0xFF00 ≤ n ∧ n ≤ 0xFF60) ∨
          (0xFFE0 ≤ n ∧ n ≤ 0xFFE6) ∨ (0x1F300 ≤ n ∧ n ≤ 0x1F64F) ∨
          (0x20000 ≤ n ∧ n ≤ 0x2FFFD) then 2
  else 1

/-- Column width of a list of graphemes. -/
def lineWidth (l : List Char) : Nat :=
  (l.map widthOf).sum

/-- Whitespace predicate used by the wrap algorithm. -/
def isWs (c : Char) : Bool :=
  c = ' ' ∨ c = '\t' ∨ c = '\n' ∨ c = '\r'

/-! ## Markup tokenizer -/

/-- A tokenizer output item: visible text, or an opening/closing markup tag. -/
inductive Tok where
  | text (c : Char)
  | openTag (name : List Char)
  | closeTag (name : List Char)
  deriving DecidableEq, Repr

/-- Characters allowed inside a `\x7b...\x7d` markup tag body. -/
def isTagChar (c : Char) : Bool :=
  c.isAlphanum ∨ c = '-' ∨ c = '/' ∨ c = '!' ∨ c = '#' ∨ c = ',' ∨ c = ';'

/-- Build the tag token for a completed tag body: a body starting with `/`
is a closing tag, anything else an opening tag. -/
def mkTag (body : List Char) : Tok :=
  match body with
  | '/' :: name => Tok.closeTag name
  | name => Tok.openTag name

/-- Modelled from the spec: tokenizer state machine (§4.5 step 1).  The
second argument holds the tag body accumulated (reversed) since an opening
brace, or `none` outside a tag.  A well-formed `\x7bname\x7d` span becomes a
tag token; a malformed or unmatched `\x7b` is flushed as literal text, never
an error. -/
def tokenizeAux (tags : Bool) : List Char → Option (List Char) → List Tok
  | [], none => []
  | [], some b => ('\x7b' :: b.reverse).map Tok.text
  | c :: cs, none =>
    if c = '\x7b' ∧ tags then tokenizeAux tags cs (some [])
    else Tok.text c :: tokenizeAux tags cs none
  | c :: cs, some b =>
    if c = '\x7d' then mkTag b.reverse :: tokenizeAux tags cs none
    else if isTagChar c then tokenizeAux tags cs (some (c :: b))
    else
      ('\x7b' :: b.reverse).map Tok.text ++
        (if c = '\x7b' ∧ tags then tokenizeAux tags cs (some [])
         else Tok.text c :: tokenizeAux tags cs none)

/-- Modelled from the spec: tokenize content into text and markup tags.
When tags are disabled every character is literal text. -/
def tokenize (tags : Bool) (cs : List Char) : List Tok :=
  tokenizeAux tags cs none

/-- The visible characters of a token stream (markup tags contribute none). -/
def textOfToks : List Tok → List Char
  | [] => []
  | Tok.text c :: ts => c :: textOfToks ts
  | Tok.openTag _ :: ts => textOfToks ts
  | Tok.closeTag _ :: ts => textOfToks ts

/-- The visible characters of a content string under a tag flag. -/
def visibleChars (tags : Bool) (content : List Char) : List Char :=
  textOfToks (tokenize tags content)

theorem textOfToks_map_text (l : List Char) :
    textOfToks (l.map Tok.text) = l := by
  induction l with
  | nil => rfl
  | cons c cs ih =>
    rw [List.map_cons, textOfToks, ih]

theorem textOfToks_append (a b : List Tok) :
    textOfToks (a ++ b) = textOfToks a ++ textOfToks b := by
  induction a with
  | nil => rfl
  | cons t ts ih =>
    cases t <;>
      simp only [List.cons_append, textOfToks, List.append_eq, ih]

theorem tokenizeAux_no_close {tags : Bool} {cs : List Char}
    (h : '\x7d' ∉ cs) :
    textOfToks (tokenizeAux tags cs none) = cs ∧
    ∀ b, textOfToks (tokenizeAux tags cs (some b))
      = '\x7b' :: b.reverse ++ cs := by
  induction cs with
  | nil =>
    refine ⟨rfl, fun b => ?_⟩
    rw [tokenizeAux, textOfToks_map_text]
    simp
  | cons c cs ih =>
    simp only [List.mem_cons, not_or] at h
    have hc : c ≠ '\x7d' := fun hc => h.1 hc.symm
    have ih2 := ih h.2
    constructor
    · rw [tokenizeAux]
      split
      · rename_i hb
        rw [ih2.2 []]
        simp [hb.1]
      · rw [textOfToks, ih2.1]
    · intro b
      rw [tokenizeAux, if_neg hc]
      split
      · rw [ih2.2 (c :: b)]
        simp
      · rw [textOfToks_append, textOfToks_map_text]
        split
        · rename_i hb
          rw [ih2.2 []]
          simp [hb.1]
        · rw [textOfToks, ih2.1]

theorem tokenize_no_close {tags : Bool} {cs : List Char} (h : '\x7d' ∉ cs) :
    textOfToks (tokenize tags cs) = cs :=
  (tokenizeAux_no_close h).1

/-! ## Text layout engine -/

/-- Wrap or truncate policy for content wider than its column budget. -/
inductive Mode where
  | wrap
  | truncateEnd
  | truncateMiddle
  | truncateStart
  deriving DecidableEq, Repr

/-- Horizontal alignment of a finished line. -/
inductive Align where
  | left
  | center
  | right
  deriving DecidableEq, Repr

/-- Modelled from the spec: split visible content into lines at newlines
(§4.5 step 7: each line is processed independently).  Empty content yields
one empty line. -/
def splitLines (cs : List Char) : List (List Char) :=
  match cs with
  | [] => [[]]
  | c :: rest =>
    if c = '\n' then [] :: splitLines rest
    else
      match splitLines rest with
      | [] => [[c]]
      | l :: ls => (c :: l) :: ls

/-- Modelled from the spec: split a line into its maximal whitespace-free
words, discarding the whitespace between them.  The accumulator holds the
word currently being read, reversed. -/
def splitWordsAux : List Char → List Char → List (List Char)
  | [], acc => if acc.isEmpty then [] else [acc.reverse]
  | c :: rest, acc =>
    if isWs c then
      (if acc.isEmpty then [] else [acc.reverse]) ++ splitWordsAux rest []
    else splitWordsAux rest (c :: acc)

/-- Modelled from the spec: the maximal whitespace-free words of a line. -/
def splitWords (cs : List Char) : List (List Char) :=
  splitWordsAux cs []

/-- Modelled from the spec: greedily take the longest prefix of graphemes
whose total width fits in the budget; returns the taken prefix and the rest. -/
def takeFit (budget : Nat) : List Char → List Char × List Char
  | [] => ([], [])
  | c :: cs =>
    if widthOf c ≤ budget then
      let p := takeFit (budget - widthOf c) cs
      (c :: p.1, p.2)
    else ([], c :: cs)

theorem takeFit_append (budget : Nat) (cs : List Char) :
    (takeFit budget cs).1 ++ (takeFit budget cs).2 = cs := by
  induction cs generalizing budget with
  | nil => rfl
  | cons c cs ih =>
    simp only [takeFit]
    split
    · simp [ih]
    · simp

theorem takeFit_width (budget : Nat) (cs : List Char) :
    lineWidth (takeFit budget cs).1 ≤ budget := by
  induction cs generalizing budget with
  | nil => simp [takeFit, lineWidth]
  | cons c cs ih =>
    simp only [takeFit]
    split
    · rename_i hc
      have := ih (budget - widthOf c)
      simp only [lineWidth, List.map_cons, List.sum_cons]
      simp only [lineWidth] at this
      omega
    · simp [lineWidth]

theorem takeFit_rest_length (budget : Nat) (cs : List Char) :
    (takeFit budget cs).2.length ≤ cs.length := by
  induction cs generalizing budget with
  | nil => simp [takeFit]
  | cons c cs ih =>
    simp only [takeFit]
    split
    · have := ih (budget - widthOf c)
      simp
      omega
    · simp

/-- Modelled from the spec: break a word that alone exceeds the width budget
into chunks, each a maximal greedy run of graphemes fitting the budget,
always consuming at least one grapheme per chunk.  The accumulator holds
the chunk currently being filled, reversed. -/
def chunksAux (w : Nat) : List Char → List Char → List (List Char)
  | [], acc => if acc.isEmpty then [] else [acc.reverse]
  | c :: cs, acc =>
    if acc.isEmpty then chunksAux w cs [c]
    else if lineWidth acc + widthOf c ≤ w then chunksAux w cs (c :: acc)
    else acc.reverse :: chunksAux w cs [c]

/-- Modelled from the spec: the width-bounded chunks of an oversized word. -/
def chunksOf (w : Nat) (cs : List Char) : List (List Char) :=
  chunksAux w cs []

theorem chunksAux_flatten (w : Nat) (cs : List Char) (acc : List Char) :
    (chunksAux w cs acc).flatten = acc.reverse ++ cs := by
  induction cs generalizing acc with
  | nil =>
    rw [chunksAux]
    split
    · rename_i hacc
      rw [List.isEmpty_iff.mp hacc]
      rfl
    · simp
  | cons c cs ih =>
    rw [chunksAux]
    split
    · rename_i hacc
      rw [ih [c], List.isEmpty_iff.mp hacc]
      simp
    · split
      · rw [ih (c :: acc)]
        simp
      · simp only [List.flatten_cons]
        rw [ih [c]]
        simp

theorem chunksOf_join (w : Nat) (cs : List Char) :
    (chunksOf w cs).flatten = cs := by
  rw [chunksOf, chunksAux_flatten]
  rfl

/-- Modelled from the spec: greedy word placement for wrap mode (§4.5 step
3).  Words are packed onto the current line separated by single spaces;
a word that does not fit starts a new line; a word alone wider than the
budget is broken into width-bounded chunks. -/
def placeWords (w : Nat) : List Char → List (List Char) → List (List Char)
  | cur, [] => [cur]
  | cur, word :: ws =>
    if lineWidth word ≤ w then
      if cur.isEmpty then placeWords w word ws
      else if lineWidth cur + 1 + lineWidth word ≤ w then
        placeWords w (cur ++ ' ' :: word) ws
      else cur :: placeWords w word ws
    else
      (if cur.isEmpty then [] else [cur]) ++ chunksOf w word ++ placeWords w [] ws

/-- Modelled from the spec: wrap mode on the visible graphemes of one line. -/
def wrapLine (w : Nat) (cs : List Char) : List (List Char) :=
  placeWords w [] (splitWords cs)

/-- The ellipsis glyph used by the truncation modes. -/
def ellipsis : Char := '…'

/-- Modelled from the spec: truncate-end (§4.5 step 4): content fitting the
budget is kept whole; otherwise keep up to `w - 1` columns and append an
ellipsis occupying the remaining column. -/
def truncEnd (w : Nat) (cs : List Char) : List Char :=
  if lineWidth cs ≤ w then cs
  else (takeFit (w - 1) cs).1 ++ [ellipsis]

/-- Modelled from the spec: truncate-start (§4.5 step 5): keep the trailing
`w - 1` columns, prefixed with an ellipsis. -/
def truncStart (w : Nat) (cs : List Char) : List Char :=
  if lineWidth cs ≤ w then cs
  else ellipsis :: ((takeFit (w - 1) cs.reverse).1).reverse

/-- Modelled from the spec: truncate-middle (§4.5 step 6): split the budget
roughly evenly before and after an ellipsis inserted at the midpoint. -/
def truncMiddle (w : Nat) (cs : List Char) : List Char :=
  if lineWidth cs ≤ w then cs
  else
    let pre := (w - 1) - (w - 1) / 2
    let post := (w - 1) / 2
    (takeFit pre cs).1 ++ [ellipsis] ++ ((takeFit post cs.reverse).1).reverse

/-- Modelled from the spec: alignment pads the finished line with blank
cells on the appropriate side(s) (§4.5 step 8). -/
def alignPad (w : Nat) (a : Align) (l : List Char) : List Char :=
  let pad := w - lineWidth l
  match a with
  | Align.left => l
  | Align.right => List.replicate pad ' ' ++ l
  | Align.center =>
      List.replicate (pad / 2) ' ' ++ l ++ List.replicate (pad - pad / 2) ' '

/-- Modelled from the spec: one line of content under the selected mode. -/
def layoutLine (w : Nat) (m : Mode) (cs : List Char) : List (List Char) :=
  match m with
  | Mode.wrap => wrapLine w cs
  | Mode.truncateEnd => [truncEnd w cs]
  | Mode.truncateStart => [truncStart w cs]
  | Mode.truncateMiddle => [truncMiddle w cs]

/-- Modelled from the spec: the text layout engine (§4.5).  Content is
tokenized (markup stripped when tags are enabled, malformed tags kept as
literal text), split into lines at newlines, each line wrapped or truncated
at the column budget, and every output line aligned. -/
def layout (content : List Char) (w : Nat) (m : Mode) (tags : Bool)
    (a : Align) : List (List Char) :=
  ((splitLines (visibleChars tags content)).map (layoutLine w m)).flatten.map
    (alignPad w a)

/-! ## Round-trip lemmas for wrap mode -/

/-- The non-whitespace graphemes of a character list, in order. -/
def nonWs (l : List Char) : List Char :=
  l.filter (fun c => !(isWs c))

theorem nonWs_nil : nonWs [] = [] := rfl

theorem nonWs_append (a b : List Char) : nonWs (a ++ b) = nonWs a ++ nonWs b := by
  simp [nonWs]

theorem nonWs_cons (c : Char) (l : List Char) :
    nonWs (c :: l) = if isWs c then nonWs l else c :: nonWs l := by
  simp only [nonWs, List.filter_cons]
  split
  · rename_i hb
    rw [if_neg (by simpa using hb)]
  · rename_i hb
    rw [if_pos (by simpa using hb)]

theorem nonWs_replicate_space (n : Nat) :
    nonWs (List.replicate n ' ') = [] := by
  induction n with
  | zero => rfl
  | succ n ih =>
    rw [List.replicate_succ, nonWs_cons]
    rw [if_pos (by simp [isWs])]
    exact ih

theorem nonWs_alignPad (w : Nat) (a : Align) (l : List Char) :
    nonWs (alignPad w a l) = nonWs l := by
  cases a <;>
    simp [alignPad, nonWs_append, nonWs_replicate_space]

theorem nonWs_idem (l : List Char) : nonWs (nonWs l) = nonWs l := by
  simp [nonWs, List.filter_filter]

theorem nonWs_take_drop (l : List Char) :
    nonWs l = l.takeWhile (fun d => !(isWs d)) ++
      nonWs (l.dropWhile (fun d => !(isWs d))) := by
  induction l with
  | nil => rfl
  | cons c cs ih =>
    by_cases hc : isWs c
    · have ht : (c :: cs).takeWhile (fun d => !(isWs d)) = [] := by
        simp [List.takeWhile_cons, hc]
      have hd : (c :: cs).dropWhile (fun d => !(isWs d)) = c :: cs := by
        simp [List.dropWhile_cons, hc]
      rw [ht, hd, List.nil_append]
    · have ht : (c :: cs).takeWhile (fun d => !(isWs d))
          = c :: cs.takeWhile (fun d => !(isWs d)) := by
        simp [List.takeWhile_cons, hc]
      have hd : (c :: cs).dropWhile (fun d => !(isWs d))
          = cs.dropWhile (fun d => !(isWs d)) := by
        simp [List.dropWhile_cons, hc]
      rw [ht, hd, nonWs_cons, if_neg hc, List.cons_append, ih]

theorem splitWordsAux_flatten (cs : List Char) (acc : List Char) :
    (splitWordsAux cs acc).flatten = acc.reverse ++ nonWs cs := by
  induction cs generalizing acc with
  | nil =>
    rw [splitWordsAux]
    split
    · rename_i hacc
      rw [List.isEmpty_iff.mp hacc]
      rfl
    · simp [nonWs]
  | cons c cs ih =>
    rw [splitWordsAux]
    split
    · rename_i hc
      rw [List.flatten_append, ih [], nonWs_cons, if_pos hc]
      split
      · rename_i hacc
        rw [List.isEmpty_iff.mp hacc]
        rfl
      · simp
    · rename_i hc
      rw [ih (c :: acc), nonWs_cons, if_neg (by simpa using hc)]
      simp

theorem flatten_splitWords (cs : List Char) :
    (splitWords cs).flatten = nonWs cs := by
  rw [splitWords, splitWordsAux_flatten]
  rfl

theorem nonWs_flatten_placeWords (w : Nat) (cur : List Char)
    (ws : List (List Char)) :
    nonWs (placeWords w cur ws).flatten = nonWs cur ++ nonWs ws.flatten := by
  induction ws generalizing cur with
  | nil => simp [placeWords, nonWs_nil]
  | cons word ws ih =>
    rw [placeWords]
    split
    · split
      · rename_i hfits hcur
        rw [ih word, List.isEmpty_iff.mp hcur]
        simp [List.flatten_cons, nonWs_append, nonWs_nil]
      · split
        · rw [ih (cur ++ ' ' :: word)]
          rw [nonWs_append, nonWs_cons,
            if_pos (show isWs ' ' = true by simp [isWs])]
          simp [List.flatten_cons, nonWs_append]
        · simp only [List.flatten_cons, nonWs_append]
          rw [ih word]
    · simp only [List.flatten_append, nonWs_append]
      rw [ih [], chunksOf_join]
      split
      · rename_i hcur
        rw [List.isEmpty_iff.mp hcur]
        simp [List.flatten_cons, nonWs_append, nonWs_nil]
      · simp [List.flatten_cons, nonWs_append, nonWs_nil]

theorem wrapLine_roundTrip (w : Nat) (cs : List Char) :
    nonWs (wrapLine w cs).flatten = nonWs cs := by
  rw [wrapLine, nonWs_flatten_placeWords, flatten_splitWords]
  simp [nonWs_idem, nonWs_nil]

theorem splitLines_ne_nil (cs : List Char) : splitLines cs ≠ [] := by
  induction cs with
  | nil => simp [splitLines]
  | cons c rest ih =>
    rw [splitLines]
    split
    · simp
    · cases h : splitLines rest with
      | nil => simp
      | cons l ls => simp

theorem nonWs_flatten_splitLines (cs : List Char) :
    nonWs (splitLines cs).flatten = nonWs cs := by
  induction cs with
  | nil => rfl
  | cons c rest ih =>
    rw [splitLines]
    split
    · rename_i hc
      rw [hc]
      simp only [List.flatten_cons, List.nil_append]
      rw [ih, nonWs_cons]
      rw [if_pos (by simp [isWs])]
    · cases h : splitLines rest with
      | nil => exact absurd h (splitLines_ne_nil rest)
      | cons l ls =>
        rw [h] at ih
        simp only [List.flatten_cons, List.cons_append] at ih ⊢
        rw [nonWs_cons, nonWs_cons]
        split
        · exact ih
        · rw [ih]

theorem nonWs_flatten_map_alignPad (w : Nat) (a : Align)
    (L : List (List Char)) :
    nonWs (L.map (alignPad w a)).flatten = nonWs L.flatten := by
  induction L with
  | nil => rfl
  | cons l ls ih =>
    simp only [List.map_cons, List.flatten_cons, nonWs_append]
    rw [nonWs_alignPad, ih]

theorem nonWs_flatten_map_wrapLine (w : Nat) (lines : List (List Char)) :
    nonWs ((lines.map (layoutLine w Mode.wrap)).flatten).flatten
      = nonWs lines.flatten := by
  induction lines with
  | nil => rfl
  | cons l ls ih =>
    simp only [List.map_cons, List.flatten_cons, List.flatten_append,
      nonWs_append]
    rw [ih]
    have : nonWs (layoutLine w Mode.wrap l).flatten = nonWs l :=
      wrapLine_roundTrip w l
    rw [this]

theorem layout_wrap_roundTrip (content : List Char) (w : Nat) (tags : Bool)
    (a : Align) :
    nonWs (layout content w Mode.wrap tags a).flatten
      = nonWs (visibleChars tags content) := by
  rw [layout, nonWs_flatten_map_alignPad, nonWs_flatten_map_wrapLine,
    nonWs_flatten_splitLines]

/-! ## Width-budget lemmas -/

theorem lineWidth_nil : lineWidth [] = 0 := rfl

theorem lineWidth_cons (c : Char) (l : List Char) :
    lineWidth (c :: l) = widthOf c + lineWidth l := by
  simp [lineWidth]

theorem lineWidth_append (a b : List Char) :
    lineWidth (a ++ b) = lineWidth a + lineWidth b := by
  simp [lineWidth]

theorem lineWidth_reverse (l : List Char) :
    lineWidth l.reverse = lineWidth l := by
  simp [lineWidth, List.sum_reverse]

theorem lineWidth_replicate_space (n : Nat) :
    lineWidth (List.replicate n ' ') = n := by
  induction n with
  | zero => rfl
  | succ n ih =>
    rw [List.replicate_succ, lineWidth_cons, ih]
    have : widthOf ' ' = 1 := by decide
    omega

theorem width_space : widthOf ' ' = 1 := by decide

theorem width_ellipsis : widthOf ellipsis = 1 := by decide

theorem takeFit_fst_subset (b : Nat) (cs : List Char) {x : Char}
    (h : x ∈ (takeFit b cs).1) : x ∈ cs := by
  have := takeFit_append b cs
  rw [← this]
  exact List.mem_append_left _ h

theorem takeFit_snd_subset (b : Nat) (cs : List Char) {x : Char}
    (h : x ∈ (takeFit b cs).2) : x ∈ cs := by
  have := takeFit_append b cs
  rw [← this]
  exact List.mem_append_right _ h

theorem chunksAux_width (w : Nat) (cs : List Char) (acc : List Char)
    (h : ∀ c ∈ cs, widthOf c ≤ w) (hacc : lineWidth acc ≤ w) :
    ∀ l ∈ chunksAux w cs acc, lineWidth l ≤ w := by
  induction cs generalizing acc with
  | nil =>
    intro l hl
    rw [chunksAux] at hl
    split at hl
    · simp at hl
    · simp only [List.mem_singleton] at hl
      subst hl
      rw [lineWidth_reverse]
      exact hacc
  | cons c cs ih =>
    have hc : widthOf c ≤ w := h c (List.mem_cons_self c cs)
    have hrest : ∀ x ∈ cs, widthOf x ≤ w :=
      fun x hx => h x (List.mem_cons_of_mem c hx)
    intro l hl
    rw [chunksAux] at hl
    split at hl
    · refine ih [c] hrest ?_ l hl
      rw [lineWidth_cons, lineWidth_nil]
      omega
    · split at hl
      · rename_i hfit
        refine ih (c :: acc) hrest ?_ l hl
        rw [lineWidth_cons]
        omega
      · rcases List.mem_cons.mp hl with hl | hl
        · subst hl
          rw [lineWidth_reverse]
          exact hacc
        · refine ih [c] hrest ?_ l hl
          rw [lineWidth_cons, lineWidth_nil]
          omega

theorem chunksOf_width (w : Nat) (cs : List Char)
    (h : ∀ c ∈ cs, widthOf c ≤ w) :
    ∀ l ∈ chunksOf w cs, lineWidth l ≤ w := by
  rw [chunksOf]
  exact chunksAux_width w cs [] h (by rw [lineWidth_nil]; omega)

theorem placeWords_width (w : Nat) (cur : List Char) (ws : List (List Char))
    (hcur : lineWidth cur ≤ w)
    (h : ∀ word ∈ ws, ∀ c ∈ word, widthOf c ≤ w) :
    ∀ l ∈ placeWords w cur ws, lineWidth l ≤ w := by
  induction ws generalizing cur with
  | nil =>
    intro l hl
    rw [placeWords] at hl
    simp only [List.mem_singleton] at hl
    subst hl
    exact hcur
  | cons word ws ih =>
    have hword := h word (List.mem_cons_self word ws)
    have hrest : ∀ v ∈ ws, ∀ c ∈ v, widthOf c ≤ w :=
      fun v hv => h v (List.mem_cons_of_mem word hv)
    intro l hl
    rw [placeWords] at hl
    split at hl
    · rename_i hfits
      split at hl
      · exact ih word hfits hrest l hl
      · split at hl
        · rename_i hjoin
          refine ih (cur ++ ' ' :: word) ?_ hrest l hl
          rw [lineWidth_append, lineWidth_cons, width_space]
          omega
        · rcases List.mem_cons.mp hl with hl | hl
          · subst hl; exact hcur
          · exact ih word hfits hrest l hl
    · rename_i hbig
      rcases List.mem_append.mp hl with hl | hl
      · rcases List.mem_append.mp hl with hl | hl
        · split at hl
          · simp at hl
          · simp only [List.mem_singleton] at hl
            subst hl; exact hcur
        · exact chunksOf_width w word hword l hl
      · exact ih [] (by simp [lineWidth_nil]) hrest l hl

theorem splitWordsAux_subset (cs : List Char) (acc : List Char) :
    ∀ word ∈ splitWordsAux cs acc, ∀ x ∈ word, x ∈ acc ∨ x ∈ cs := by
  induction cs generalizing acc with
  | nil =>
    intro word hw x hx
    rw [splitWordsAux] at hw
    split at hw
    · simp at hw
    · simp only [List.mem_singleton] at hw
      subst hw
      exact Or.inl (List.mem_reverse.mp hx)
  | cons c cs ih =>
    intro word hw x hx
    rw [splitWordsAux] at hw
    split at hw
    · rcases List.mem_append.mp hw with hw | hw
      · split at hw
        · simp at hw
        · simp only [List.mem_singleton] at hw
          subst hw
          exact Or.inl (List.mem_reverse.mp hx)
      · rcases ih [] word hw x hx with hx2 | hx2
        · simp at hx2
        · exact Or.inr (List.mem_cons_of_mem c hx2)
    · rcases ih (c :: acc) word hw x hx with hx2 | hx2
      · rcases List.mem_cons.mp hx2 with hx2 | hx2
        · subst hx2; exact Or.inr (List.mem_cons_self x cs)
        · exact Or.inl hx2
      · exact Or.inr (List.mem_cons_of_mem c hx2)

theorem splitWords_subset (cs : List Char) :
    ∀ word ∈ splitWords cs, ∀ c ∈ word, c ∈ cs := by
  intro word hw x hx
  rcases splitWordsAux_subset cs [] word hw x hx with h | h
  · simp at h
  · exact h

theorem wrapLine_width (w : Nat) (cs : List Char)
    (h : ∀ c ∈ cs, widthOf c ≤ w) :
    ∀ l ∈ wrapLine w cs, lineWidth l ≤ w := by
  rw [wrapLine]
  exact placeWords_width w [] (splitWords cs) (by simp [lineWidth_nil])
    (fun word hw c hc => h c (splitWords_subset cs word hw c hc))

theorem truncEnd_width (w : Nat) (cs : List Char) (hw : 1 ≤ w) :
    lineWidth (truncEnd w cs) ≤ w := by
  rw [truncEnd]
  split
  · assumption
  · rw [lineWidth_append]
    have := takeFit_width (w - 1) cs
    have he : lineWidth [ellipsis] = 1 := by
      rw [lineWidth_cons, lineWidth_nil, width_ellipsis]
    omega

theorem truncStart_width (w : Nat) (cs : List Char) (hw : 1 ≤ w) :
    lineWidth (truncStart w cs) ≤ w := by
  rw [truncStart]
  split
  · assumption
  · rw [lineWidth_cons, lineWidth_reverse, width_ellipsis]
    have := takeFit_width (w - 1) cs.reverse
    omega

theorem truncMiddle_width (w : Nat) (cs : List Char) (hw : 1 ≤ w) :
    lineWidth (truncMiddle w cs) ≤ w := by
  rw [truncMiddle]
  split
  · assumption
  · simp only [lineWidth_append, lineWidth_reverse]
    have h1 := takeFit_width ((w - 1) - (w - 1) / 2) cs
    have h2 := takeFit_width ((w - 1) / 2) cs.reverse
    have he : lineWidth [ellipsis] = 1 := by
      rw [lineWidth_cons, lineWidth_nil, width_ellipsis]
    omega

theorem alignPad_width (w : Nat) (a : Align) (l : List Char)
    (h : lineWidth l ≤ w) : lineWidth (alignPad w a l) ≤ w := by
  cases a with
  | left => exact h
  | right =>
    rw [alignPad]
    simp only [lineWidth_append, lineWidth_replicate_space]
    omega
  | center =>
    rw [alignPad]
    simp only [lineWidth_append, lineWidth_replicate_space]
    omega

theorem layoutLine_width (w : Nat) (m : Mode) (cs : List Char) (hw : 1 ≤ w)
    (h : ∀ c ∈ cs, widthOf c ≤ w) :
    ∀ l ∈ layoutLine w m cs, lineWidth l ≤ w := by
  cases m with
  | wrap => exact wrapLine_width w cs h
  | truncateEnd =>
    intro l hl
    simp only [layoutLine, List.mem_singleton] at hl
    subst hl
    exact truncEnd_width w cs hw
  | truncateStart =>
    intro l hl
    simp only [layoutLine, List.mem_singleton] at hl
    subst hl
    exact truncStart_width w cs hw
  | truncateMiddle =>
    intro l hl
    simp only [layoutLine, List.mem_singleton] at hl
    subst hl
    exact truncMiddle_width w cs hw

theorem splitLines_subset (cs : List Char) :
    ∀ l ∈ splitLines cs, ∀ c ∈ l, c ∈ cs := by
  induction cs with
  | nil => simp [splitLines]
  | cons c rest ih =>
    rw [splitLines]
    split
    · intro l hl x hx
      rcases List.mem_cons.mp hl with hl | hl
      · subst hl; simp at hx
      · exact List.mem_cons_of_mem c (ih l hl x hx)
    · cases h : splitLines rest with
      | nil => exact absurd h (splitLines_ne_nil rest)
      | cons m ms =>
        rw [h] at ih
        intro l hl x hx
        rcases List.mem_cons.mp hl with hl | hl
        · subst hl
          rcases List.mem_cons.mp hx with hx | hx
          · subst hx; exact List.mem_cons_self x rest
          · exact List.mem_cons_of_mem c
              (ih m (List.mem_cons_self m ms) x hx)
        · exact List.mem_cons_of_mem c
            (ih l (List.mem_cons_of_mem m hl) x hx)

theorem layout_width (content : List Char) (w : Nat) (m : Mode) (tags : Bool)
    (a : Align) (hw : 1 ≤ w)
    (h : ∀ c ∈ visibleChars tags content, widthOf c ≤ w) :
    ∀ l ∈ layout content w m tags a, lineWidth l ≤ w := by
  rw [layout]
  intro l hl
  rcases List.mem_map.mp hl with ⟨l0, hl0, rfl⟩
  rcases List.mem_flatten.mp hl0 with ⟨L, hL, hlL⟩
  rcases List.mem_map.mp hL with ⟨line, hline, rfl⟩
  refine alignPad_width w a l0 ?_
  refine layoutLine_width w m line hw ?_ l0 hlL
  intro c hc
  exact h c (splitLines_subset _ line hline c hc)

/-! ## Layout totality lemmas -/

theorem placeWords_length (w : Nat) (cur : List Char)
    (ws : List (List Char)) : 1 ≤ (placeWords w cur ws).length := by
  induction ws generalizing cur with
  | nil => simp [placeWords]
  | cons word ws ih =>
    rw [placeWords]
    split
    · split
      · exact ih word
      · split
        · exact ih (cur ++ ' ' :: word)
        · simp only [List.length_cons]
          omega
    · simp only [List.length_append]
      have := ih ([] : List Char)
      omega

theorem layoutLine_length (w : Nat) (m : Mode) (cs : List Char) :
    1 ≤ (layoutLine w m cs).length := by
  cases m with
  | wrap => exact placeWords_length w [] (splitWords cs)
  | truncateEnd => simp [layoutLine]
  | truncateStart => simp [layoutLine]
  | truncateMiddle => simp [layoutLine]

theorem layout_length (content : List Char) (w : Nat) (m : Mode)
    (tags : Bool) (a : Align) : 1 ≤ (layout content w m tags a).length := by
  rw [layout]
  rw [List.length_map]
  cases h : splitLines (visibleChars tags content) with
  | nil => exact absurd h (splitLines_ne_nil _)
  | cons line ls =>
    simp only [List.map_cons, List.flatten_cons, List.length_append]
    have := layoutLine_length w m line
    omega

/-! ## LRU layout cache -/

/-- The key of a layout-cache entry: raw content, column width, wrap mode
and tags-enabled flag. -/
structure CKey where
  content : List Char
  width : Nat
  mode : Mode
  tags : Bool
  deriving DecidableEq, Repr

/-- A cached layout result: the rendered lines. -/
abbrev CVal := List (List Char)

/-- The cache store: most-recently-used entry first. -/
abbrev Cache := List (CKey × CVal)

/-- The layout function memoized by the cache (alignment is applied after
caching and is not part of the key). -/
def layoutFn (k : CKey) : CVal :=
  layout k.content k.width k.mode k.tags Align.left

/-- Look a key up in the cache store. -/
def cacheFind (k : CKey) : Cache → Option CVal
  | [] => none
  | (k0, v) :: rest => if k0 = k then some v else cacheFind k rest

/-- Remove a key from the cache store. -/
def cacheErase (k : CKey) : Cache → Cache
  | [] => []
  | (k0, v) :: rest => if k0 = k then rest else (k0, v) :: cacheErase k rest

/-- Modelled from the spec: `getOrCompute` (§4.6).  On a hit the cached
value is returned and the entry moved to the front (most-recently-used);
on a miss the value is computed, inserted at the front, and the store
truncated to its capacity, dropping the least-recently-used entries. -/
def getOrCompute (cap : Nat) (f : CKey → CVal) (c : Cache) (k : CKey) :
    CVal × Cache :=
  match cacheFind k c with
  | some v => (v, (k, v) :: cacheErase k c)
  | none => (f k, ((k, f k) :: c).take cap)

/-- The cache state after serving a sequence of requests, starting empty. -/
def runKeys (cap : Nat) (f : CKey → CVal) (ks : List CKey) : Cache :=
  ks.foldl (fun c k => (getOrCompute cap f c k).2) []

/-- Every entry stored in the cache is the memoized function's value at its
key. -/
def Consistent (f : CKey → CVal) (c : Cache) : Prop :=
  ∀ kv ∈ c, kv.2 = f kv.1

theorem cacheFind_consistent {f : CKey → CVal} {c : Cache} {k : CKey}
    {v : CVal} (hc : Consistent f c) (h : cacheFind k c = some v) :
    v = f k := by
  induction c with
  | nil => simp [cacheFind] at h
  | cons kv rest ih =>
    rw [cacheFind] at h
    split at h
    · rename_i heq
      have := hc kv (List.mem_cons_self kv rest)
      cases kv with
      | mk k0 v0 =>
        simp only [Option.some.injEq] at h
        subst h
        simpa [← heq] using this
    · exact ih (fun kv hkv => hc kv (List.mem_cons_of_mem _ hkv)) h

theorem cacheErase_consistent {f : CKey → CVal} {c : Cache} (k : CKey)
    (hc : Consistent f c) : Consistent f (cacheErase k c) := by
  induction c with
  | nil => simp [cacheErase, Consistent]
  | cons kv rest ih =>
    rw [cacheErase]
    split
    · exact fun x hx => hc x (List.mem_cons_of_mem _ hx)
    · intro x hx
      rcases List.mem_cons.mp hx with hx | hx
      · subst hx; exact hc kv (List.mem_cons_self kv rest)
      · exact ih (fun y hy => hc y (List.mem_cons_of_mem _ hy)) x hx

theorem getOrCompute_consistent {cap : Nat} {f : CKey → CVal} {c : Cache}
    (k : CKey) (hc : Consistent f c) :
    (getOrCompute cap f c k).1 = f k ∧
      Consistent f (getOrCompute cap f c k).2 := by
  rw [getOrCompute]
  cases h : cacheFind k c with
  | some v =>
    refine ⟨cacheFind_consistent hc h, ?_⟩
    intro kv hkv
    rcases List.mem_cons.mp hkv with hkv | hkv
    · subst hkv
      exact cacheFind_consistent hc h
    · exact cacheErase_consistent k hc kv hkv
  | none =>
    refine ⟨rfl, ?_⟩
    intro kv hkv
    have hkv2 := List.mem_of_mem_take hkv
    rcases List.mem_cons.mp hkv2 with hkv2 | hkv2
    · subst hkv2; rfl
    · exact hc kv hkv2

theorem runKeys_consistent (cap : Nat) (f : CKey → CVal) (ks : List CKey) :
    Consistent f (runKeys cap f ks) := by
  rw [runKeys]
  have h : ∀ (c : Cache), Consistent f c →
      Consistent f (ks.foldl (fun c k => (getOrCompute cap f c k).2) c) := by
    induction ks with
    | nil => intro c hc; exact hc
    | cons k ks ih =>
      intro c hc
      rw [List.foldl_cons]
      exact ih _ (getOrCompute_consistent k hc).2
  exact h [] (by simp [Consistent])

/-! ## LRU eviction lemmas -/

/-- Pair every key with the memoized function's value. -/
def pairOf (f : CKey → CVal) (ks : List CKey) : Cache :=
  ks.map (fun k => (k, f k))

theorem cacheFind_eq_none {k : CKey} {c : Cache}
    (h : ∀ kv ∈ c, kv.1 ≠ k) : cacheFind k c = none := by
  induction c with
  | nil => rfl
  | cons kv rest ih =>
    rw [cacheFind]
    split
    · rename_i heq
      cases kv with
      | mk k0 v0 => exact absurd heq (h (k0, v0) (List.mem_cons_self _ rest))
    · exact ih (fun x hx => h x (List.mem_cons_of_mem _ hx))

theorem cacheFind_pairOf {f : CKey → CVal} {k : CKey} {ks : List CKey}
    (h : k ∈ ks) : cacheFind k (pairOf f ks) = some (f k) := by
  induction ks with
  | nil => simp at h
  | cons k0 rest ih =>
    rw [pairOf, List.map_cons, cacheFind]
    split
    · rename_i heq
      rw [heq]
    · rename_i heq
      rcases List.mem_cons.mp h with h | h
      · exact absurd h.symm heq
      · exact ih h

theorem take_cons_take (cap : Nat) (x : CKey) (l : List CKey) :
    (x :: l.take cap).take cap = (x :: l).take cap := by
  cases cap with
  | zero => simp
  | succ n =>
    simp only [List.take_succ_cons, List.take_take]
    have h : n ⊓ (n + 1) = n := Nat.min_eq_left (by omega)
    rw [h]

theorem runKeys_nodup_acc (cap : Nat) (f : CKey → CVal) :
    ∀ (ks processed : List CKey), (processed ++ ks).Nodup →
      ks.foldl (fun c k => (getOrCompute cap f c k).2)
        (pairOf f (processed.reverse.take cap))
      = pairOf f ((processed ++ ks).reverse.take cap) := by
  intro ks
  induction ks with
  | nil =>
    intro processed h
    simp
  | cons k rest ih =>
    intro processed h
    rw [List.foldl_cons]
    have hk_not : k ∉ processed := by
      rw [List.nodup_append] at h
      intro hkp
      exact h.2.2 hkp (List.mem_cons_self k rest)
    have hfind : cacheFind k (pairOf f (processed.reverse.take cap))
        = none := by
      apply cacheFind_eq_none
      intro kv hkv
      rw [pairOf, List.mem_map] at hkv
      rcases hkv with ⟨k0, hk0, rfl⟩
      intro heq
      have hk0p : k0 ∈ processed :=
        List.mem_reverse.mp (List.mem_of_mem_take hk0)
      exact hk_not (heq ▸ hk0p)
    rw [getOrCompute, hfind]
    have hacc : ((k, f k) :: pairOf f (processed.reverse.take cap)).take cap
        = pairOf f ((processed ++ [k]).reverse.take cap) := by
      rw [List.reverse_append, List.reverse_singleton, List.singleton_append]
      rw [← take_cons_take]
      simp [pairOf, List.map_take]
    rw [hacc]
    have hih := ih (processed ++ [k])
      (by rwa [List.append_assoc, List.singleton_append])
    rw [hih, List.append_assoc, List.singleton_append]

theorem runKeys_nodup (cap : Nat) (f : CKey → CVal) (ks : List CKey)
    (h : ks.Nodup) : runKeys cap f ks = pairOf f (ks.reverse.take cap) := by
  have hacc := runKeys_nodup_acc cap f ks [] (by simpa using h)
  simpa [runKeys, pairOf] using hacc

theorem lru_eviction_exact (cap : Nat) (f : CKey → CVal) (k0 : CKey)
    (rest : List CKey) (hnd : (k0 :: rest).Nodup)
    (hlen : rest.length = cap) :
    cacheFind k0 (runKeys cap f (k0 :: rest)) = none ∧
    ∀ k ∈ rest, cacheFind k (runKeys cap f (k0 :: rest)) = some (f k) := by
  have hrun := runKeys_nodup cap f (k0 :: rest) hnd
  have hrev : (k0 :: rest).reverse.take cap = rest.reverse := by
    rw [List.reverse_cons]
    have hl : rest.reverse.length = cap := by simpa using hlen
    rw [← hl, List.take_left]
  rw [hrun, hrev]
  constructor
  · apply cacheFind_eq_none
    intro kv hkv
    rw [pairOf, List.mem_map] at hkv
    rcases hkv with ⟨k1, hk1, rfl⟩
    intro heq
    rw [List.mem_reverse] at hk1
    rw [List.nodup_cons] at hnd
    exact hnd.1 (heq ▸ hk1)
  · intro k hk
    exact cacheFind_pairOf (by rwa [List.mem_reverse])

theorem getOrCompute_hit_mru (cap : Nat) (f : CKey → CVal) (c : Cache)
    (k : CKey) (v : CVal) (h : cacheFind k c = some v) :
    (getOrCompute cap f c k).1 = v ∧
      (getOrCompute cap f c k).2.head? = some (k, v) := by
  rw [getOrCompute, h]
  exact ⟨rfl, rfl⟩

/-! ## Capability interpreter -/

/-- Modelled from the spec: parameter fetch; missing parameters default
to 0 (§4.2). -/
def getParm (ps : List Int) (i : Nat) : Int :=
  ps.getD i 0

/-- Decimal formatting of an integer operand. -/
def intChars (n : Int) : List Char :=
  (toString n).toList

/-- Modelled from the spec: the increment-both opcode used for 1-based
terminal coordinates adds one to the first two parameters. -/
def incrTwo : List Int → List Int
  | a :: b :: rest => (a + 1) :: (b + 1) :: rest
  | [a] => [a + 1]
  | [] => []

/-- Pop two operands and push the result of a binary operation; absent
operands default to 0. -/
def binop (f : Int → Int → Int) (st : List Int) : List Int :=
  f (st.getD 1 0) (st.getD 0 0) :: st.drop 2

/-- Modelled from the spec: skip a false conditional's then-branch, up to
the matching else or endif marker, honoring nested conditionals. -/
def skipThen : List Char → Nat → List Char
  | [], _ => []
  | ['%'], _ => []
  | '%' :: c :: cs, d =>
    if c = '?' then skipThen cs (d + 1)
    else if c = ';' then (if d = 0 then cs else skipThen cs (d - 1))
    else if c = 'e' then (if d = 0 then cs else skipThen cs d)
    else skipThen cs d
  | _ :: cs, d => skipThen cs d

/-- Modelled from the spec: skip a taken conditional's else-branch, up to
the matching endif marker, honoring nested conditionals. -/
def skipPast : List Char → Nat → List Char
  | [], _ => []
  | ['%'], _ => []
  | '%' :: c :: cs, d =>
    if c = '?' then skipPast cs (d + 1)
    else if c = ';' then (if d = 0 then cs else skipPast cs (d - 1))
    else skipPast cs d
  | _ :: cs, d => skipPast cs d

/-- Scan the decimal digits of a literal integer push, stopping at the
closing brace. -/
def scanNum : List Char → Nat → Nat × List Char
  | [], acc => (acc, [])
  | c :: cs, acc =>
    if c = '\x7d' then (acc, cs)
    else if c.isDigit then scanNum cs (acc * 10 + (c.toNat - 48))
    else (acc, c :: cs)

theorem skipThen_length (cs : List Char) (d : Nat) :
    (skipThen cs d).length ≤ cs.length := by
  induction cs, d using skipThen.induct <;>
    simp only [skipThen] <;> (try split) <;> (try split) <;> simp_all <;> omega

theorem skipPast_length (cs : List Char) (d : Nat) :
    (skipPast cs d).length ≤ cs.length := by
  induction cs, d using skipPast.induct <;>
    simp only [skipPast] <;> (try split) <;> (try split) <;> simp_all <;> omega

theorem scanNum_length (cs : List Char) (acc : Nat) :
    (scanNum cs acc).2.length ≤ cs.length := by
  induction cs, acc using scanNum.induct <;>
    simp only [scanNum] <;> (try split) <;> (try split) <;> simp_all <;> omega

/-- Modelled from the spec: one pass of the capability interpreter (§4.2),
a stack machine over the template's opcodes: push literal/parameter,
arithmetic, comparisons, conditional branch, increment-both, and
numeric/char formatting.  Missing parameters default to 0, division
truncates, unknown opcodes are dropped rather than corrupting output.
The fuel argument only bounds recursion; every step consumes at least one
template character, so fuel exceeding the template length never runs out. -/
def runCap : Nat → List Char → List Int → List Int → List Char
  | 0, _, _, _ => []
  | fuel + 1, tpl, ps, st =>
    match tpl with
    | '%' :: 'p' :: d :: cs =>
      if d.isDigit then runCap fuel cs ps (getParm ps (d.toNat - 49) :: st)
      else runCap fuel cs ps st
    | '%' :: c :: cs =>
      if c = '%' then '%' :: runCap fuel cs ps st
      else if c = 'd' then
        intChars (st.getD 0 0) ++ runCap fuel cs ps (st.drop 1)
      else if c = 'c' then
        Char.ofNat (st.getD 0 0).toNat :: runCap fuel cs ps (st.drop 1)
      else if c = 'i' then runCap fuel cs (incrTwo ps) st
      else if c = '\x7b' then
        runCap fuel (scanNum cs 0).2 ps (((scanNum cs 0).1 : Int) :: st)
      else if c = '+' then runCap fuel cs ps (binop (fun x y => x + y) st)
      else if c = '-' then runCap fuel cs ps (binop (fun x y => x - y) st)
      else if c = '*' then runCap fuel cs ps (binop (fun x y => x * y) st)
      else if c = '/' then
        runCap fuel cs ps (binop (fun x y => Int.div x y) st)
      else if c = 'm' then
        runCap fuel cs ps (binop (fun x y => Int.mod x y) st)
      else if c = '=' then
        runCap fuel cs ps (binop (fun x y => if x = y then 1 else 0) st)
      else if c = '<' then
        runCap fuel cs ps (binop (fun x y => if x < y then 1 else 0) st)
      else if c = '>' then
        runCap fuel cs ps (binop (fun x y => if x > y then 1 else 0) st)
      else if c = '?' then runCap fuel cs ps st
      else if c = 't' then
        if st.getD 0 0 ≠ 0 then runCap fuel cs ps (st.drop 1)
        else runCap fuel (skipThen cs 0) ps (st.drop 1)
      else if c = 'e' then runCap fuel (skipPast cs 0) ps st
      else if c = ';' then runCap fuel cs ps st
      else runCap fuel cs ps st
    | ['%'] => []
    | ch :: cs => ch :: runCap fuel cs ps st
    | [] => []

/-- Modelled from the spec: `evaluate(template, params)` produces the
literal escape sequence for a capability template. -/
def evaluate (template : List Char) (ps : List Int) : List Char :=
  runCap (template.length + 1) template ps []

/-- The standard cursor-move capability template for a 1-based terminal:
`ESC [ %i %p1 %d ; %p2 %d H`. -/
def cupTemplate : List Char :=
  ['\x1b', '[', '%', 'i', '%', 'p', '1', '%', 'd', ';',
   '%', 'p', '2', '%', 'd', 'H']

/-! ## Terminal Program and screen-buffer diff renderer -/

/-- One screen column: grapheme, display width, colors and style bitset. -/
structure Cell where
  ch : Char
  cw : Nat
  fg : Nat
  bg : Nat
  attrs : Nat
  deriving DecidableEq, Repr

/-- Active style: attribute bitset plus foreground/background colors. -/
structure Style where
  attrs : Nat
  fg : Nat
  bg : Nat
  deriving DecidableEq, Repr

/-- A row of cells; a grid is the ordered rows of one frame. -/
abbrev Row := List Cell

abbrev Grid := List Row

/-- Modelled from the spec: tracked Program state — cursor position, active
style, scroll-region bounds, cursor visibility (§4.3). -/
structure ProgState where
  row : Nat
  col : Nat
  style : Style
  scrollTop : Nat
  scrollBottom : Nat
  cursorVisible : Bool
  deriving DecidableEq, Repr

/-- An intent-level operation emitted by the diff renderer. -/
inductive ProgOp where
  | moveTo (row col : Nat)
  | write (cells : List Cell)
  deriving DecidableEq, Repr

/-- Modelled from the spec: `moveTo` diffs the requested cursor position
against tracked state; when equal it writes zero bytes, otherwise it
resolves the cursor-move capability and updates tracked state (§4.3). -/
def moveTo (st : ProgState) (r c : Nat) : ProgState × List Char :=
  if st.row = r ∧ st.col = c then (st, [])
  else ({ st with row := r, col := c },
    evaluate cupTemplate [(r : Int), (c : Int)])

/-- Modelled from the spec: `setStyle` writes nothing when the requested
style equals the tracked style. -/
def setStyle (st : ProgState) (s : Style) : ProgState × List Char :=
  if st.style = s then (st, [])
  else ({ st with style := s },
    '\x1b' :: '[' :: intChars (s.attrs : Int) ++ ['m'])

/-- Modelled from the spec: `scrollRegion` writes nothing when the
requested bounds equal the tracked bounds. -/
def scrollRegion (st : ProgState) (top bot : Nat) : ProgState × List Char :=
  if st.scrollTop = top ∧ st.scrollBottom = bot then (st, [])
  else ({ st with scrollTop := top, scrollBottom := bot },
    '\x1b' :: '[' :: intChars (top : Int) ++ ';' :: intChars (bot : Int) ++ ['r'])

/-- Modelled from the spec: `showCursor` writes nothing when the requested
visibility equals the tracked visibility. -/
def showCursor (st : ProgState) (v : Bool) : ProgState × List Char :=
  if st.cursorVisible = v then (st, [])
  else ({ st with cursorVisible := v },
    if v then ['\x1b', '[', '?', '2', '5', 'h'] else ['\x1b', '[', '?', '2', '5', 'l'])

/-- Bytes written for one cell at the tracked style (style changes are
emitted through `setStyle` by `execOp`). -/
def cellBytes (c : Cell) : List Char :=
  [c.ch]

/-- Execute one diff-renderer operation on the Program, producing the new
tracked state and the bytes written. -/
def execOp (st : ProgState) : ProgOp → ProgState × List Char
  | ProgOp.moveTo r c => moveTo st r c
  | ProgOp.write cells =>
    ({ st with col := st.col + cells.length },
      (cells.map cellBytes).flatten)

/-- Execute a list of operations, concatenating the written bytes. -/
def execOps (st : ProgState) : List ProgOp → ProgState × List Char
  | [] => (st, [])
  | op :: ops =>
    let p := execOp st op
    let q := execOps p.1 ops
    (q.1, p.2 ++ q.2)

/-- Take the maximal leading run of differing cell pairs. -/
def spanDiff : List (Cell × Cell) → List Cell × List (Cell × Cell)
  | [] => ([], [])
  | (c, p) :: rest =>
    if c = p then ([], (c, p) :: rest)
    else
      let s := spanDiff rest
      (c :: s.1, s.2)

theorem spanDiff_rest_length (l : List (Cell × Cell)) :
    (spanDiff l).2.length ≤ l.length := by
  induction l with
  | nil => simp [spanDiff]
  | cons cp rest ih =>
    cases cp with
    | mk c p =>
      rw [spanDiff]
      split
      · simp
      · simp
        omega

/-- Modelled from the spec: per-row diff (§4.7) — walk the paired current
and previous cells; equal cells emit nothing; a maximal differing span is
coalesced into one cursor move plus one styled write. -/
def diffRowAux (y : Nat) : Nat → List (Cell × Cell) → List ProgOp
  | _, [] => []
  | x, (c, p) :: rest =>
    if c = p then diffRowAux y (x + 1) rest
    else
      let s := spanDiff ((c, p) :: rest)
      ProgOp.moveTo y x :: ProgOp.write s.1 ::
        diffRowAux y (x + s.1.length) s.2
termination_by _ l => l.length
decreasing_by
  · simp
  · simp only [spanDiff]
    split
    · simp_all
    · have := spanDiff_rest_length rest
      simp
      omega

/-- Diff one row of the current grid against the previous grid. -/
def diffRow (y : Nat) (cur prev : Row) : List ProgOp :=
  diffRowAux y 0 (cur.zip prev)

/-- Modelled from the spec: the diff renderer (§4.7) — compare the grids
row by row, from the top row downward, and emit the operations for the
differing spans. -/
def renderDiffAux (y : Nat) : Grid → Grid → List ProgOp
  | [], _ => []
  | _ :: _, [] => []
  | r :: rs, p :: ps => diffRow y r p ++ renderDiffAux (y + 1) rs ps

/-- Modelled from the spec: `render(currentGrid, previousGrid)` (§4.7). -/
def renderDiff (cur prev : Grid) : List ProgOp :=
  renderDiffAux 0 cur prev

theorem diffRowAux_self (y : Nat) (x : Nat) (r : Row) :
    diffRowAux y x (r.zip r) = [] := by
  induction r generalizing x with
  | nil => simp [diffRowAux]
  | cons c cs ih =>
    rw [List.zip_cons_cons, diffRowAux, if_pos rfl]
    exact ih (x + 1)

theorem renderDiffAux_self (y : Nat) (g : Grid) :
    renderDiffAux y g g = [] := by
  induction g generalizing y with
  | nil => rfl
  | cons r rs ih =>
    rw [renderDiffAux, diffRow, diffRowAux_self, List.nil_append]
    exact ih (y + 1)

theorem renderDiff_self (g : Grid) : renderDiff g g = [] :=
  renderDiffAux_self 0 g

/-! ## Widget-descriptor factory (embedded from factory.ts) -/

/-- The descriptor classes registered by the factory; `customD` stands for
a user-supplied descriptor class registered via `registerDescriptor`. -/
inductive DClass where
  | boxD
  | textD
  | buttonD
  | inputD
  | bigTextD
  | spacerD
  | customD (id : Nat)
  deriving DecidableEq, Repr

/-- Opaque stand-in for a React props object. -/
abbrev Props := Nat

/-- A descriptor instance: the class it was constructed from and the props
passed to the constructor. -/
structure DescriptorInstance where
  cls : DClass
  props : Props
  deriving DecidableEq, Repr

/-- The registry: a string-keyed map with JS `Map` semantics (first match
on get, in-place update on set), insertion-ordered. -/
abbrev Registry := List (String × DClass)

/-- `Map.get` on the registry. -/
def mapGet (t : String) : Registry → Option DClass
  | [] => none
  | (k, v) :: rest => if k = t then some v else mapGet t rest

/-- `Map.set` on the registry: update in place when the key exists,
otherwise append. -/
def mapSet (t : String) (c : DClass) : Registry → Registry
  | [] => [(t, c)]
  | (k, v) :: rest =>
    if k = t then (k, c) :: rest else (k, v) :: mapSet t c rest

/-- The built-in registry of `factory.ts`, in source order, including the
`tbutton` and `textinput` aliases. -/
def descriptorRegistry : Registry :=
  [("box", DClass.boxD), ("text", DClass.textD),
   ("button", DClass.buttonD), ("tbutton", DClass.buttonD),
   ("input", DClass.inputD), ("textinput", DClass.inputD),
   ("bigtext", DClass.bigTextD), ("spacer", DClass.spacerD)]

/-- Comma-separated join, as produced by `Array.from(keys).join(", ")`. -/
def joinComma : List String → String
  | [] => ""
  | [t] => t
  | t :: rest => t ++ ", " ++ joinComma rest

/-- The error message thrown by `createDescriptor` for an unknown type. -/
def unknownTypeMsg (reg : Registry) (t : String) : String :=
  "Unknown widget type: \"" ++ t ++ "\". Available types: " ++
    joinComma (reg.map (fun kv => kv.1))

/-- `createDescriptor(type, props)`: look the type up in the registry;
throw an error naming the unknown type when absent, otherwise construct a
new instance of the registered descriptor class with the props. -/
def createDescriptor (reg : Registry) (t : String) (props : Props) :
    Except String DescriptorInstance :=
  match mapGet t reg with
  | none => Except.error (unknownTypeMsg reg t)
  | some c => Except.ok ⟨c, props⟩

/-- `registerDescriptor(type, descriptorClass)`: register a custom widget
descriptor class under a type string. -/
def registerDescriptor (reg : Registry) (t : String) (c : DClass) :
    Registry :=
  mapSet t c reg

theorem mapGet_mapSet (t : String) (c : DClass) (reg : Registry) :
    mapGet t (mapSet t c reg) = some c := by
  induction reg with
  | nil => simp [mapSet, mapGet]
  | cons kv rest ih =>
    cases kv with
    | mk k v =>
      rw [mapSet]
      split
      · rename_i hk
        rw [mapGet, if_pos hk]
      · rename_i hk
        rw [mapGet, if_neg hk]
        exact ih

/-! ## React render entry point (embedded from render.ts) -/

/-- An unblessed screen, as far as `render()` is concerned. -/
structure Screen where
  width : Nat
  height : Nat
  deriving DecidableEq, Repr

/-- The options accepted by `render()`; `screen` is required but typed as
optional, which is exactly the case the guard protects against. -/
structure ROptions where
  screen : Option Screen
  debug : Bool
  deriving DecidableEq, Repr

/-- The engine-state creations `render()` performs, in source order. -/
inductive EngineEffect where
  | createLayoutManager
  | setManager
  | createRootLayoutNode
  | createRootDOMNode
  | createContainer
  | updateContainer
  deriving DecidableEq, Repr

/-- `render(element, options)`: the missing-screen guard runs before any
engine state is created; the result records the engine effects performed
and the error thrown, if any. -/
def render (opts : ROptions) : List EngineEffect × Option String :=
  match opts.screen with
  | none => ([], some "render() requires options.screen")
  | some _ =>
    ([EngineEffect.createLayoutManager, EngineEffect.setManager,
      EngineEffect.createRootLayoutNode, EngineEffect.createRootDOMNode,
      EngineEffect.createContainer, EngineEffect.updateContainer], none)

/-! ## Claim theorems -/

/-- C1: for every grid, rendering it when the previous grid is identical
emits zero Program operations and zero bytes, and every Program operation
whose requested state equals the tracked state writes nothing. -/
theorem claim_C1_diff_noop (g : Grid) (st : ProgState) :
    renderDiff g g = [] ∧
    (execOps st (renderDiff g g)).2 = [] ∧
    (moveTo st st.row st.col).2 = [] ∧
    (setStyle st st.style).2 = [] ∧
    (scrollRegion st st.scrollTop st.scrollBottom).2 = [] ∧
    (showCursor st st.cursorVisible).2 = [] := by
  refine ⟨renderDiff_self g, ?_, ?_, ?_, ?_, ?_⟩
  · rw [renderDiff_self g]
    rfl
  · rw [moveTo, if_pos ⟨rfl, rfl⟩]
  · rw [setStyle, if_pos rfl]
  · rw [scrollRegion, if_pos ⟨rfl, rfl⟩]
  · rw [showCursor, if_pos rfl]

/-- C2: the layout cache is a pure optimization — after any sequence of
requests served from an initially empty cache, `getOrCompute` returns
exactly the value a fresh call of the layout function would compute,
regardless of prior hits, misses, or evictions. -/
theorem claim_C2_cache_pure (cap : Nat) (ks : List CKey) (k : CKey) :
    (getOrCompute cap layoutFn (runKeys cap layoutFn ks) k).1
      = layoutFn k :=
  (getOrCompute_consistent k (runKeys_consistent cap layoutFn ks)).1

/-- C3: round-trip of wrap mode — for every content string and width, the
concatenated visible text of all wrapped lines differs from the tokenized
content only in whitespace and markup: the non-whitespace visible
graphemes are preserved exactly, in order, none lost or duplicated. -/
theorem claim_C3_wrap_roundTrip (content : List Char) (w : Nat)
    (tags : Bool) (a : Align) :
    nonWs (layout content w Mode.wrap tags a).flatten
      = nonWs (visibleChars tags content) :=
  layout_wrap_roundTrip content w tags a

/-- C4 as stated is false: at width 1, a single double-width grapheme is
placed on a line of rendered width 2, exceeding the budget; and at width 0
truncation emits a width-1 ellipsis, also exceeding the budget. -/
theorem claim_C4_counterexample :
    (¬ (∀ l ∈ layout ['一'] 1 Mode.wrap false Align.left,
        lineWidth l ≤ 1)) ∧
    (¬ (∀ l ∈ layout ['H','i'] 0 Mode.truncateEnd false Align.left,
        lineWidth l ≤ 0)) := by
  exact ⟨by decide, by decide⟩

/-- C4 (amended): for every content and width of at least one column,
provided every single visible grapheme fits the budget on its own — in
particular width at least 2 for double-width content — every line produced
by layout has a sum of rendered cell widths at most the width. -/
theorem claim_C4_width_budget (content : List Char) (w : Nat) (m : Mode)
    (tags : Bool) (a : Align) (hw : 1 ≤ w)
    (h : ∀ c ∈ visibleChars tags content, widthOf c ≤ w) :
    ∀ l ∈ layout content w m tags a, lineWidth l ≤ w :=
  layout_width content w m tags a hw h

theorem claim_C4_witness :
    (1 ≤ 10) ∧
    (∀ c ∈ visibleChars false ['H','i',' ','世','界'], widthOf c ≤ 10) ∧
    (∀ l ∈ layout ['H','i',' ','世','界'] 10 Mode.wrap false Align.left,
      lineWidth l ≤ 10) :=
  ⟨by decide, by decide,
    claim_C4_width_budget ['H','i',' ','世','界'] 10 Mode.wrap false
      Align.left (by decide) (by decide)⟩

/-- C5: laying out "Hello World Testing" at width 10 in truncate-end mode
yields the single line "Hello Wor…", whose rendered width is at most 10,
which contains the ellipsis glyph, and whose visible text begins with
"Hello". -/
theorem claim_C5_truncate_end :
    layout ['H','e','l','l','o',' ','W','o','r','l','d',' ',
            'T','e','s','t','i','n','g'] 10 Mode.truncateEnd false
        Align.left
      = [['H','e','l','l','o',' ','W','o','r','…']] ∧
    (∀ l ∈ layout ['H','e','l','l','o',' ','W','o','r','l','d',' ',
            'T','e','s','t','i','n','g'] 10 Mode.truncateEnd false
        Align.left, lineWidth l ≤ 10) ∧
    ellipsis ∈ ['H','e','l','l','o',' ','W','o','r','…'] ∧
    ['H','e','l','l','o',' ','W','o','r','…'].take 5
      = ['H','e','l','l','o'] := by
  decide

/-- C6: LRU eviction exactness — inserting N+1 distinct keys into a cache
bounded at N entries evicts exactly the least-recently-used (first) key
and none other, and a hit marks its entry most-recently-used. -/
theorem claim_C6_lru_eviction (cap : Nat) (k0 : CKey) (rest : List CKey)
    (hnd : (k0 :: rest).Nodup) (hlen : rest.length = cap) :
    (cacheFind k0 (runKeys cap layoutFn (k0 :: rest)) = none ∧
      ∀ k ∈ rest,
        cacheFind k (runKeys cap layoutFn (k0 :: rest))
          = some (layoutFn k)) ∧
    (∀ (c : Cache) (k : CKey) (v : CVal), cacheFind k c = some v →
      (getOrCompute cap layoutFn c k).2.head? = some (k, v)) :=
  ⟨lru_eviction_exact cap layoutFn k0 rest hnd hlen,
   fun c k v h => (getOrCompute_hit_mru cap layoutFn c k v h).2⟩

/-- A concrete cache key used to witness the eviction claim. -/
def keyA : CKey := ⟨['a'], 1, Mode.wrap, false⟩

/-- A concrete cache key used to witness the eviction claim. -/
def keyB : CKey := ⟨['b'], 1, Mode.wrap, false⟩

/-- A concrete cache key used to witness the eviction claim. -/
def keyC : CKey := ⟨['c'], 1, Mode.wrap, false⟩

theorem claim_C6_witness :
    (keyA :: [keyB, keyC]).Nodup ∧ [keyB, keyC].length = 2 ∧
    ((cacheFind keyA (runKeys 2 layoutFn (keyA :: [keyB, keyC])) = none ∧
      ∀ k ∈ [keyB, keyC],
        cacheFind k (runKeys 2 layoutFn (keyA :: [keyB, keyC]))
          = some (layoutFn k)) ∧
     (∀ (c : Cache) (k : CKey) (v : CVal), cacheFind k c = some v →
       (getOrCompute 2 layoutFn c k).2.head? = some (k, v))) :=
  ⟨by decide, by decide,
    claim_C6_lru_eviction 2 keyA [keyB, keyC] (by decide) (by decide)⟩

/-- C7: the tokenizer never errors on malformed or unmatched markup: with
no closing brace in sight every character, including `\x7b`, is emitted as
literal text; layout always produces at least one line for every width,
mode and alignment; and markup-only content yields one empty visible
line. -/
theorem claim_C7_malformed_tags :
    (∀ (tags : Bool) (content : List Char), '\x7d' ∉ content →
      visibleChars tags content = content) ∧
    (∀ (content : List Char) (w : Nat) (m : Mode) (tags : Bool)
      (a : Align), 1 ≤ (layout content w m tags a).length) ∧
    layout ['\x7b','r','e','d','-','f','g','\x7d',
            '\x7b','/','r','e','d','-','f','g','\x7d'] 10
        Mode.truncateEnd true Align.left = [[]] := by
  refine ⟨?_, layout_length, by decide⟩
  intro tags content h
  exact tokenize_no_close h

theorem claim_C7_witness :
    '\x7d' ∉ ['\x7b','r','e','d'] ∧
    visibleChars true ['\x7b','r','e','d'] = ['\x7b','r','e','d'] :=
  ⟨by decide,
    claim_C7_malformed_tags.1 true ['\x7b','r','e','d'] (by decide)⟩

/-- C8: the capability interpreter is deterministic — it is a pure
function of template and parameters, so identical inputs produce
byte-identical output — and parameter-sensitive: the cursor-move template
on a 1-based terminal at (5, 10) produces different literal bytes than at
(0, 0). -/
theorem claim_C8_interpreter (t : List Char) (ps : List Int) :
    evaluate t ps = evaluate t ps ∧
    evaluate cupTemplate [5, 10] = ['\x1b','[','6',';','1','1','H'] ∧
    evaluate cupTemplate [0, 0] = ['\x1b','[','1',';','1','H'] ∧
    evaluate cupTemplate [5, 10] ≠ evaluate cupTemplate [0, 0] :=
  ⟨rfl, by decide, by decide, by decide⟩

/-- C9: `createDescriptor` throws an error naming the unknown type exactly
when the type is absent from the registry; for every registered type,
including one registered afterwards via `registerDescriptor`, it returns a
new instance of the registered descriptor class constructed with the
props. -/
theorem claim_C9_descriptor_factory (reg : Registry) (t : String)
    (props : Props) :
    ((∃ msg, createDescriptor reg t props = Except.error msg) ↔
      mapGet t reg = none) ∧
    (mapGet t reg = none →
      createDescriptor reg t props
        = Except.error (unknownTypeMsg reg t)) ∧
    (∀ C, mapGet t reg = some C →
      createDescriptor reg t props = Except.ok ⟨C, props⟩) ∧
    (∀ (C : DClass) (p : Props),
      createDescriptor (registerDescriptor reg t C) t p
        = Except.ok ⟨C, p⟩) := by
  refine ⟨⟨?_, ?_⟩, ?_, ?_, ?_⟩
  · rintro ⟨msg, hmsg⟩
    cases h : mapGet t reg with
    | none => rfl
    | some c =>
      rw [createDescriptor, h] at hmsg
      exact absurd hmsg (by simp)
  · intro h
    exact ⟨unknownTypeMsg reg t, by rw [createDescriptor, h]⟩
  · intro h
    rw [createDescriptor, h]
  · intro C h
    rw [createDescriptor, h]
  · intro C p
    rw [createDescriptor, registerDescriptor, mapGet_mapSet]

theorem claim_C9_witness :
    mapGet "box" descriptorRegistry = some DClass.boxD ∧
    createDescriptor descriptorRegistry "box" 7
      = Except.ok ⟨DClass.boxD, 7⟩ ∧
    mapGet "nope" descriptorRegistry = none ∧
    createDescriptor descriptorRegistry "nope" 0
      = Except.error (unknownTypeMsg descriptorRegistry "nope") ∧
    createDescriptor
        (registerDescriptor descriptorRegistry "mycustom" (DClass.customD 3))
        "mycustom" 5
      = Except.ok ⟨DClass.customD 3, 5⟩ :=
  ⟨by decide,
   (claim_C9_descriptor_factory descriptorRegistry "box" 7).2.2.1
     DClass.boxD (by decide),
   by decide,
   (claim_C9_descriptor_factory descriptorRegistry "nope" 0).2.1
     (by decide),
   (claim_C9_descriptor_factory descriptorRegistry "mycustom" 0).2.2.2
     (DClass.customD 3) 5⟩

/-- C10: `render` throws "render() requires options.screen" whenever the
screen option is absent, and does so before creating any layout manager,
layout node, or React container: the failed call performs zero engine
effects. -/
theorem claim_C10_render_guard (opts : ROptions)
    (h : opts.screen = none) :
    render opts = ([], some "render() requires options.screen") := by
  rw [render, h]

theorem claim_C10_witness :
    (ROptions.mk none false).screen = none ∧
    render (ROptions.mk none false)
      = ([], some "render() requires options.screen") :=
  ⟨rfl, claim_C10_render_guard (ROptions.mk none false) rfl⟩

end Tuxe
